import Mathlib

/-!
Verification of the pattern-interpolation core of the grr repository
(grr_response_core/lib/artifact_utils.py) together with the in-memory
audit-event store (grr_response_server/databases/mem_events.py).

The shallow embedding below translates the Python source into Lean
functions.  The helper module grr_response_core/lib/interpolation.py
(class Interpolator with its Vars / Scopes / ScopeVars / BindVar /
BindScope / Interpolate methods) is not part of the provided sources,
so its behaviour is modelled from the specification (spec.md sections
3, 4.1, 4.2 and 4.3); every such definition is marked in its doc
comment.  Everything else is translated directly from artifact_utils.py
and mem_events.py.

Python data conventions used by the embedding:
* Python strings are Lean String values; str.lower is modelled for the
  ASCII identifiers that knowledge-base attribute names consist of.
* getattr(obj, name, None) becomes a lookup returning Option.
* Python truthiness ("if not value") on attribute values: None, the
  empty string and the empty list are falsy, everything else truthy.
* A Python set of strings is modelled as a duplicate-free list in
  discovery order (the order in which the code first adds each name);
  CPython set iteration order is unspecified, so the discovery order
  serves as its deterministic stand-in.
-/

/-- Lowercase mapping of the 26 ASCII uppercase letters. -/
def asciiPairs : List (Char × Char) :=
  [('A', 'a'), ('B', 'b'), ('C', 'c'), ('D', 'd'), ('E', 'e'), ('F', 'f'),
   ('G', 'g'), ('H', 'h'), ('I', 'i'), ('J', 'j'), ('K', 'k'), ('L', 'l'),
   ('M', 'm'), ('N', 'n'), ('O', 'o'), ('P', 'p'), ('Q', 'q'), ('R', 'r'),
   ('S', 's'), ('T', 't'), ('U', 'u'), ('V', 'v'), ('W', 'w'), ('X', 'x'),
   ('Y', 'y'), ('Z', 'z')]

/-- Model of Python str.lower on a single character, restricted to the
ASCII range used by knowledge-base identifiers. -/
def pyLowerChar (c : Char) : Char :=
  match asciiPairs.find? (fun q => q.1 = c) with
  | some q => q.2
  | none => c

/-- Model of Python str.lower for ASCII identifier strings. -/
def pyLower (s : String) : String :=
  ⟨s.data.map pyLowerChar⟩

/-- A token of a scanned pattern: either one literal character or one
placeholder marker with its (raw, case-preserving) body. -/
inductive Tok where
  | lit (c : Char)
  | marker (body : String)
deriving DecidableEq

/-- Fuel-driven scanner for the marker regex used by artifact_utils
(INTERPOLATED_REGEX, two percent signs around a nonempty percent-free
body), reproducing re.finditer semantics: leftmost match, then continue
after the match; on a failed match attempt the engine advances by one
character.  The fuel always suffices when it is at least the length of
the input, every step consuming at least one character. -/
def scanToksF : Nat → List Char → List Tok
  | 0, cs => cs.map Tok.lit
  | _ + 1, [] => []
  | fuel + 1, c :: rest =>
      if c = '%' ∧ rest.take 1 = ['%'] then
        let rest1 := rest.drop 1
        let b := rest1.takeWhile (fun x => x ≠ '%')
        let rest2 := rest1.dropWhile (fun x => x ≠ '%')
        if b ≠ [] ∧ rest2.take 2 = ['%', '%'] then
          Tok.marker ⟨b⟩ :: scanToksF fuel (rest2.drop 2)
        else
          Tok.lit '%' :: scanToksF fuel rest
      else
        Tok.lit c :: scanToksF fuel rest

/-- Modelled from the spec: the Placeholder Scanner of
grr_response_core/lib/interpolation.py (missing from the sources) parses
a pattern into literal text and markers delimited by the double percent
sentinels (spec sections 3 and 4.1). -/
def scanToks (p : String) : List Tok :=
  scanToksF p.data.length p.data

/-- Concatenation of the characters a token list stands for. -/
def flattenToks (toks : List Tok) : List Char :=
  toks.flatMap fun t =>
    match t with
    | Tok.lit c => [c]
    | Tok.marker b => '%' :: '%' :: b.data ++ ['%', '%']

/-- Splitting a marker body at its first dot, per spec section 4.1;
extra dots stay inside the field segment (the documented policy choice
for malformed markers in spec section 9). -/
def splitFirstDot (s : String) : String × Option String :=
  let pre := s.data.takeWhile (fun c => c ≠ '.')
  match s.data.dropWhile (fun c => c ≠ '.') with
  | [] => (⟨pre⟩, none)
  | _ :: rest => (⟨pre⟩, some ⟨rest⟩)

/-- A classified placeholder reference: a scalar variable or a
scope-qualified field (spec section 3). -/
inductive Ref where
  | var (name : String)
  | scoped (scope : String) (field : String)
deriving DecidableEq

/-- Modelled from the spec: classification of one marker body by the
Scanner (spec section 4.1): lower-case the identifier, then one segment
means a scalar variable and two segments mean scope plus field. -/
def refOfBody (b : String) : Ref :=
  match splitFirstDot (pyLower b) with
  | (n, none) => Ref.var n
  | (s, some f) => Ref.scoped s f

/-- A scanned token with its marker body classified. -/
inductive STok where
  | lit (c : Char)
  | ref (r : Ref)
deriving DecidableEq

/-- Classify a raw token. -/
def refTok : Tok → STok
  | Tok.lit c => STok.lit c
  | Tok.marker b => STok.ref (refOfBody b)

/-- Lower-case the marker bodies of a token, leaving literals alone.
Two patterns differ only in the case of placeholder bodies exactly when
their scans agree after this mapping. -/
def lowerTok : Tok → Tok
  | Tok.lit c => Tok.lit c
  | Tok.marker b => Tok.marker (pyLower b)

/-- A record instance inside a repeated knowledge-base group; getattr
on it yields an optional string field value. -/
structure Record where
  getAttr : String → Option String

/-- A value stored in the knowledge base under an attribute name:
either a scalar string or a repeated group of records. -/
inductive KbValue where
  | str (s : String)
  | group (rs : List Record)

/-- The knowledge base: getattr by attribute name, None when absent. -/
structure KnowledgeBase where
  getAttr : String → Option KbValue

/-- Python truthiness of an optional knowledge-base value: None, the
empty string and the empty group are falsy. -/
def truthy : Option KbValue → Bool
  | some (KbValue.str s) => s ≠ ""
  | some (KbValue.group rs) => !rs.isEmpty
  | none => false

/-- Python truthiness of an optional record field value. -/
def fieldTruthy : Option String → Bool
  | some s => s ≠ ""
  | none => false

/-- Iterating a knowledge-base value with a Python for loop: a group
yields its records; a string yields its characters, which carry no
knowledge-base fields at all (getattr on them returns None). -/
def instancesOf : KbValue → List Record
  | KbValue.group rs => rs
  | KbValue.str s => s.data.map fun _ => Record.mk fun _ => none

/-- Modelled from the spec: the Expander substitutes scalar values,
which the spec models as strings (spec sections 4.3 and 6); a bound
group rendered as a scalar is outside the spec model and is rendered
as the empty string. -/
def renderValue : KbValue → String
  | KbValue.str s => s
  | KbValue.group _ => ""

/-- Duplicate removal keeping the first occurrence of each name, with
an accumulator of names already seen. -/
def dedupFirstAux (seen : List String) : List String → List String
  | [] => []
  | x :: xs =>
      if x ∈ seen then dedupFirstAux seen xs
      else x :: dedupFirstAux (x :: seen) xs

/-- Duplicate removal keeping first occurrences; the deterministic
stand-in for the sets returned by the Interpolator accessors. -/
def dedupFirst (l : List String) : List String :=
  dedupFirstAux [] l

/-- The classified tokens of a pattern. -/
def refsOf (p : String) : List STok :=
  (scanToks p).map refTok

/-- The raw marker bodies occurring in a pattern. -/
def markersOf (p : String) : List String :=
  (scanToks p).filterMap fun t =>
    match t with
    | Tok.marker b => some b
    | Tok.lit _ => none

/-- Modelled from the spec: Interpolator.Vars, the scalar variable
names a pattern references, one entry per distinct name
(spec sections 3 and 4.1). -/
def varNamesOf (p : String) : List String :=
  dedupFirst ((refsOf p).filterMap fun t =>
    match t with
    | STok.ref (Ref.var n) => some n
    | _ => none)

/-- Modelled from the spec: Interpolator.Scopes, the scope names a
pattern references, one entry per distinct name (spec section 4.1). -/
def scopeNamesOf (p : String) : List String :=
  dedupFirst ((refsOf p).filterMap fun t =>
    match t with
    | STok.ref (Ref.scoped s _) => some s
    | _ => none)

/-- Modelled from the spec: Interpolator.ScopeVars, the set of field
names the whole pattern requests from one scope (spec section 4.1). -/
def scopeFieldsOf (p : String) (s : String) : List String :=
  dedupFirst ((refsOf p).filterMap fun t =>
    match t with
    | STok.ref (Ref.scoped s2 f) => if s2 = s then some f else none
    | _ => none)

/-- Adding a name to the missing set (Python set.add): a no-op when the
name is already present, otherwise appended in discovery order. -/
def addMissing (missing : List String) (n : String) : List String :=
  if n ∈ missing then missing else missing ++ [n]

/-- The scalar loop of InterpolateKbAttributes (artifact_utils.py lines
81 to 89): lower-case each variable name, getattr it on the knowledge
base, bind truthy values and record falsy or absent ones as missing. -/
def resolveScalarsAux (kb : KnowledgeBase)
    (acc : List (String × KbValue) × List String) :
    List String → List (String × KbValue) × List String
  | [] => acc
  | n :: rest =>
      let attrName := pyLower n
      match kb.getAttr attrName with
      | some v =>
          if truthy (some v) then
            resolveScalarsAux kb (acc.1 ++ [(attrName, v)], acc.2) rest
          else
            resolveScalarsAux kb (acc.1, addMissing acc.2 attrName) rest
      | none => resolveScalarsAux kb (acc.1, addMissing acc.2 attrName) rest

/-- Acceptance of one group record (artifact_utils.py lines 101 to
113): a bindings entry is made for every requested field whose value on
the record is truthy, and the record is accepted exactly when the
number of bindings equals the number of requested fields. -/
def acceptInstance (fields : List String) (r : Record) : Bool :=
  (fields.filter fun f => fieldTruthy (r.getAttr (pyLower f))).length =
    fields.length

/-- Resolution of one scope (artifact_utils.py lines 91 to 116): getattr
the scope name on the knowledge base; a falsy or absent group fails;
otherwise the accepted records are those satisfying every requested
field, and an empty acceptance list fails as well. -/
def resolveScope (kb : KnowledgeBase) (fields : List String)
    (scopeName : String) : Option (List Record) :=
  match kb.getAttr (pyLower scopeName) with
  | some v =>
      if truthy (some v) then
        let accepted := (instancesOf v).filter (acceptInstance fields)
        if accepted.isEmpty then none else some accepted
      else none
  | none => none

/-- The scope loop of InterpolateKbAttributes: scopes are processed in
order, failed scopes are added to the missing set under their
lower-cased name, successful scopes are bound. -/
def resolveScopesAux (kb : KnowledgeBase) (fieldsOf : String → List String)
    (acc : List (String × List Record) × List String) :
    List String → List (String × List Record) × List String
  | [] => acc
  | s :: rest =>
      match resolveScope kb (fieldsOf s) s with
      | some accepted =>
          resolveScopesAux kb fieldsOf (acc.1 ++ [(pyLower s, accepted)], acc.2) rest
      | none =>
          resolveScopesAux kb fieldsOf (acc.1, addMissing acc.2 (pyLower s)) rest

/-- Full resolution of a pattern against a knowledge base: the scalar
loop followed by the scope loop, sharing one missing set, exactly as in
InterpolateKbAttributes (artifact_utils.py lines 77 to 116). -/
def resolveAll (p : String) (kb : KnowledgeBase) :
    List (String × KbValue) × List (String × List Record) × List String :=
  let scalars := resolveScalarsAux kb ([], []) (varNamesOf p)
  let scopes := resolveScopesAux kb (scopeFieldsOf p) ([], scalars.2) (scopeNamesOf p)
  (scalars.1, scopes.1, scopes.2)

/-- The missing set of a pattern against a knowledge base, in discovery
order. -/
def missingNames (p : String) (kb : KnowledgeBase) : List String :=
  (resolveAll p kb).2.2

/-- Model of the Python expression ", ".join(names). -/
def joinComma : List String → String
  | [] => ""
  | [x] => x
  | x :: rest => x ++ ", " ++ joinComma rest

/-- The diagnostic message built at artifact_utils.py lines 119 to 120. -/
def missingMessage (missing : List String) : String :=
  "Some attributes could not be located in the knowledgebase: " ++
    joinComma missing

/-- First association-list entry for a key, if any. -/
def lookupAssoc {α : Type} (l : List (String × α)) (k : String) : Option α :=
  match l.find? (fun q => q.1 = k) with
  | some q => some q.2
  | none => none

/-- Modelled from the spec: the Expander enumerates, per scope in
order, the accepted record instances in knowledge-base order, and each
combination of one instance per scope yields one output (spec sections
4.2 and 4.3; the spec's recommended Cartesian policy for several
scopes, with single-scope patterns reducing to one output per accepted
instance). -/
def combos (sbinds : List (String × List Record)) :
    List String → List (List (String × Record))
  | [] => [[]]
  | s :: rest =>
      match lookupAssoc sbinds s with
      | some insts =>
          insts.flatMap fun r => (combos sbinds rest).map fun c => (s, r) :: c
      | none => combos sbinds rest

/-- Modelled from the spec: substitution of one classified token under
the scalar bindings and one chosen record per scope (spec section 4.3).
Scanner output is lower-cased, so an unbound reference, which cannot
occur once the missing set is empty, reproduces its marker with the
lower-cased body. -/
def renderRefTok (binds : List (String × KbValue))
    (combo : List (String × Record)) : STok → String
  | STok.lit c => String.singleton c
  | STok.ref (Ref.var n) =>
      match lookupAssoc binds n with
      | some v => renderValue v
      | none => "%%" ++ n ++ "%%"
  | STok.ref (Ref.scoped s f) =>
      match lookupAssoc combo s with
      | some r =>
          match r.getAttr f with
          | some v => if v ≠ "" then v else "%%" ++ s ++ "." ++ f ++ "%%"
          | none => "%%" ++ s ++ "." ++ f ++ "%%"
      | none => "%%" ++ s ++ "." ++ f ++ "%%"

/-- Model of the Python expression "".join over a list of strings. -/
def joinAll (l : List String) : String :=
  ⟨(l.map String.data).flatten⟩

/-- Modelled from the spec: Interpolator.Interpolate, producing one
fully substituted string per combination of accepted scope instances
(spec section 4.3). -/
def interpolateOutputs (refs : List STok) (binds : List (String × KbValue))
    (sbinds : List (String × List Record)) (scopes : List String) :
    List String :=
  (combos sbinds scopes).map fun combo =>
    joinAll (refs.map (renderRefTok binds combo))

/-- Observable result of running InterpolateKbAttributes to the end:
either the yielded strings or a raised
KnowledgeBaseInterpolationError message. -/
inductive InterpResult where
  | ok (outs : List String)
  | error (msg : String)
deriving DecidableEq

/-- Outputs of a result, the empty list for an error. -/
def InterpResult.outputsD : InterpResult → List String
  | InterpResult.ok outs => outs
  | InterpResult.error _ => []

/-- Whether a result raised no error. -/
def InterpResult.isOk : InterpResult → Bool
  | InterpResult.ok _ => true
  | InterpResult.error _ => false

/-- InterpolateKbAttributes (artifact_utils.py lines 57 to 128): scan
the pattern, resolve every scalar and scope reference collecting the
missing set, then either raise one aggregated error (strict), log and
yield nothing (lenient), or yield the expanded strings. -/
def interpolateKbAttributes (pattern : String) (kb : KnowledgeBase)
    (ignoreErrors : Bool) : InterpResult :=
  let r := resolveAll pattern kb
  if r.2.2.isEmpty then
    InterpResult.ok (interpolateOutputs (refsOf pattern) r.1 r.2.1
      ((scopeNamesOf pattern).map pyLower))
  else if ignoreErrors then
    InterpResult.ok []
  else
    InterpResult.error (missingMessage r.2.2)

/-- InterpolateListKbAttributes (artifact_utils.py lines 49 to 54):
extend an accumulator with each element's expansion in order; an error
raised while expanding one element aborts the whole call. -/
def interpolateListKbAttributes (inputList : List String)
    (kb : KnowledgeBase) (ignoreErrors : Bool) : InterpResult :=
  match inputList with
  | [] => InterpResult.ok []
  | p :: rest =>
      match interpolateKbAttributes p kb ignoreErrors with
      | InterpResult.error m => InterpResult.error m
      | InterpResult.ok outs =>
          match interpolateListKbAttributes rest kb ignoreErrors with
          | InterpResult.error m => InterpResult.error m
          | InterpResult.ok outs2 => InterpResult.ok (outs ++ outs2)

/-- The group a scope name denotes on the knowledge base: the iterable
instances of its value, or nothing when the attribute is absent. -/
def kbGroup (kb : KnowledgeBase) (s : String) : List Record :=
  match kb.getAttr s with
  | some v => instancesOf v
  | none => []

/-- Lexicographic comparison of character lists by code point, the
order Python's sorted uses on strings. -/
def charListLe : List Char → List Char → Bool
  | [], _ => true
  | _ :: _, [] => false
  | a :: as, b :: bs => if a = b then charListLe as bs else decide (a < b)

/-- Stated from the claim under scrutiny, not from the code: the
message that would carry the missing names as a sorted list joined with
a comma separator. -/
def sortedMissingMessage (missing : List String) : String :=
  "Some attributes could not be located in the knowledgebase: " ++
    joinComma (List.insertionSort (fun a b => charListLe a.data b.data = true) missing)

/-- An audit event of mem_events.py: its timestamp (an RDFDatetime,
modelled as microseconds since the epoch) and its remaining fields,
opaque to the store and bundled as one payload value. -/
structure AuditEvent where
  timestamp : Nat
  payload : String
deriving DecidableEq

/-- ReadAllAuditEvents (mem_events.py lines 14 to 15): a snapshot of
the stored events sorted by timestamp; Python's sorted is a stable
comparison sort, modelled by insertion sort on the timestamp key. -/
def readAllAuditEvents (events : List AuditEvent) : List AuditEvent :=
  List.insertionSort (fun a b => a.timestamp ≤ b.timestamp) events

/-- WriteAuditEvent (mem_events.py lines 18 to 21): copy the incoming
event, stamp the copy with the current time (the clock reading taken by
rdfvalue.RDFDatetime.Now, passed here as the argument now) and append
it to the store. -/
def writeAuditEvent (events : List AuditEvent) (event : AuditEvent)
    (now : Nat) : List AuditEvent :=
  let copy := event
  let stamped := { copy with timestamp := now }
  events ++ [stamped]

/-- WriteAuditEvent again, with Python object identity made explicit: a
heap of event objects addressed by index, the store holding addresses.
The local rebinding event = event.Copy() allocates a fresh object at the
end of the heap, the mutation event.timestamp = Now() hits that fresh
address only, and the fresh address is appended to the store. -/
def heapWriteAuditEvent (heap : List AuditEvent) (events : List Nat)
    (eventAddr : Nat) (now : Nat) : List AuditEvent × List Nat :=
  match heap[eventAddr]? with
  | none => (heap, events)
  | some ev =>
      let copyAddr := heap.length
      let heap1 := heap ++ [ev]
      let heap2 := heap1.set copyAddr { ev with timestamp := now }
      (heap2, events ++ [copyAddr])

/-- A token of the single-percent Windows environment variable regex:
either one literal character or one marker with its raw body. -/
inductive WTok where
  | lit (c : Char)
  | envMarker (body : String)
deriving DecidableEq

/-- Fuel-driven scanner for the regex of
ExpandWindowsEnvironmentVariables (one percent sign around a nonempty
percent-free body), with the same re.finditer semantics as scanToksF. -/
def winToksF : Nat → List Char → List WTok
  | 0, cs => cs.map WTok.lit
  | _ + 1, [] => []
  | fuel + 1, c :: rest =>
      if c = '%' then
        let b := rest.takeWhile (fun x => x ≠ '%')
        let rest2 := rest.dropWhile (fun x => x ≠ '%')
        if b ≠ [] ∧ rest2.take 1 = ['%'] then
          WTok.envMarker ⟨b⟩ :: winToksF fuel (rest2.drop 1)
        else
          WTok.lit '%' :: winToksF fuel rest
      else
        WTok.lit c :: winToksF fuel rest

/-- The marker tokens of a Windows environment variable string. -/
def winToks (s : String) : List WTok :=
  winToksF s.data.length s.data

/-- Concatenation of the characters a Windows token list stands for. -/
def flattenWToks (toks : List WTok) : List Char :=
  toks.flatMap fun t =>
    match t with
    | WTok.lit c => [c]
    | WTok.envMarker b => '%' :: b.data ++ ['%']

/-- The substitution of one marker body (artifact_utils.py lines 210 to
217): getattr the environ-prefixed lower-cased name on the knowledge
base; a nonempty string value replaces the marker and anything else
reproduces the marker with its original case. -/
def envSubst (kb : KnowledgeBase) (b : String) : String :=
  match kb.getAttr ("environ_" ++ pyLower b) with
  | some (KbValue.str s) => if s ≠ "" then s else "%" ++ b ++ "%"
  | some (KbValue.group _) => "%" ++ b ++ "%"
  | none => "%" ++ b ++ "%"

/-- The loop body of ExpandWindowsEnvironmentVariables fused into one
recursive pass: the components list of the source accumulates the gap
before each match, then the substitution for the match, and finally the
chunk after the last match (artifact_utils.py lines 204 to 220). -/
def expandWindowsEnvironmentVariablesF (kb : KnowledgeBase) :
    Nat → List Char → String
  | 0, cs => ⟨cs⟩
  | _ + 1, [] => ""
  | fuel + 1, c :: rest =>
      if c = '%' then
        let b := rest.takeWhile (fun x => x ≠ '%')
        let rest2 := rest.dropWhile (fun x => x ≠ '%')
        if b ≠ [] ∧ rest2.take 1 = ['%'] then
          envSubst kb ⟨b⟩ ++
            expandWindowsEnvironmentVariablesF kb fuel (rest2.drop 1)
        else
          String.singleton '%' ++ expandWindowsEnvironmentVariablesF kb fuel rest
      else
        String.singleton c ++ expandWindowsEnvironmentVariablesF kb fuel rest

/-- ExpandWindowsEnvironmentVariables (artifact_utils.py lines 193 to
220). -/
def expandWindowsEnvironmentVariables (dataString : String)
    (kb : KnowledgeBase) : String :=
  expandWindowsEnvironmentVariablesF kb dataString.data.length dataString.data

/-! Helper lemmas about lower-casing. -/

/-- Lowercase results of the ASCII table never appear among its keys. -/
theorem asciiPairs_snd_not_key :
    ∀ q ∈ asciiPairs, asciiPairs.find? (fun r => r.1 = q.2) = none := by
  decide

/-- Model of str.lower is idempotent on characters. -/
theorem pyLowerChar_idem (c : Char) :
    pyLowerChar (pyLowerChar c) = pyLowerChar c := by
  unfold pyLowerChar
  cases h : asciiPairs.find? (fun q => q.1 = c) with
  | none => rw [h]
  | some q =>
      have hq : q ∈ asciiPairs := List.mem_of_find?_eq_some h
      rw [asciiPairs_snd_not_key q hq]

/-- Model of str.lower is idempotent on strings. -/
theorem pyLower_idem (s : String) : pyLower (pyLower s) = pyLower s := by
  unfold pyLower
  apply congrArg String.mk
  rw [List.map_map]
  have : pyLowerChar ∘ pyLowerChar = pyLowerChar := by
    funext c
    exact pyLowerChar_idem c
  rw [this]

/-- Characters of a lower-cased string are fixed by lower-casing. -/
theorem pyLowerChar_of_mem_pyLower {s : String} {c : Char}
    (h : c ∈ (pyLower s).data) : pyLowerChar c = c := by
  unfold pyLower at h
  simp only [List.mem_map] at h
  obtain ⟨c0, -, rfl⟩ := h
  exact pyLowerChar_idem c0

/-- Characterwise fixed lists are fixed by the lower-casing map. -/
theorem map_pyLowerChar_eq_self {l : List Char}
    (h : ∀ c ∈ l, pyLowerChar c = c) : l.map pyLowerChar = l := by
  induction l with
  | nil => rfl
  | cons c cs ih =>
      simp only [List.map_cons, List.cons.injEq]
      exact ⟨h c (by simp), ih fun x hx => h x (by simp [hx])⟩

/-- A string whose characters lower-casing fixes is itself fixed. -/
theorem pyLower_eq_self {s : String}
    (h : ∀ c ∈ s.data, pyLowerChar c = c) : pyLower s = s := by
  unfold pyLower
  conv_rhs => rw [show s = ⟨s.data⟩ from rfl]
  exact congrArg String.mk (map_pyLowerChar_eq_self h)

/-- Both components produced by splitting a lower-cased body are fixed
under lower-casing. -/
theorem splitFirstDot_pyLower_fixed (b : String) :
    (pyLower (splitFirstDot (pyLower b)).1 = (splitFirstDot (pyLower b)).1) ∧
      (∀ f, (splitFirstDot (pyLower b)).2 = some f → pyLower f = f) := by
  unfold splitFirstDot
  cases hd : (pyLower b).data.dropWhile (fun c => c ≠ '.') with
  | nil =>
      refine ⟨pyLower_eq_self fun c hc => ?_, by simp⟩
      exact pyLowerChar_of_mem_pyLower (List.takeWhile_subset _ hc)
  | cons d rest =>
      constructor
      · refine pyLower_eq_self fun c hc => ?_
        exact pyLowerChar_of_mem_pyLower (List.takeWhile_subset _ hc)
      · intro f hf
        simp only [Option.some.injEq] at hf
        subst hf
        refine pyLower_eq_self fun c hc => ?_
        have hmem : c ∈ (pyLower b).data := by
          apply List.dropWhile_subset (fun c => c ≠ '.')
          rw [hd]
          exact List.mem_cons_of_mem d hc
        exact pyLowerChar_of_mem_pyLower hmem

/-- Scalar names produced by the scanner are already lower-cased. -/
theorem refOfBody_var_fixed {b n : String}
    (h : refOfBody b = Ref.var n) : pyLower n = n := by
  unfold refOfBody at h
  cases hs : (splitFirstDot (pyLower b)).2 with
  | none =>
      have h1 := (splitFirstDot_pyLower_fixed b).1
      rw [show splitFirstDot (pyLower b) =
            ((splitFirstDot (pyLower b)).1, (splitFirstDot (pyLower b)).2) from rfl,
          hs] at h
      simp only [Ref.var.injEq] at h
      rw [← h]
      exact h1
  | some f =>
      rw [show splitFirstDot (pyLower b) =
            ((splitFirstDot (pyLower b)).1, (splitFirstDot (pyLower b)).2) from rfl,
          hs] at h
      simp at h

/-- Scope and field names produced by the scanner are already
lower-cased. -/
theorem refOfBody_scoped_fixed {b s f : String}
    (h : refOfBody b = Ref.scoped s f) : pyLower s = s ∧ pyLower f = f := by
  unfold refOfBody at h
  cases hs : (splitFirstDot (pyLower b)).2 with
  | none =>
      rw [show splitFirstDot (pyLower b) =
            ((splitFirstDot (pyLower b)).1, (splitFirstDot (pyLower b)).2) from rfl,
          hs] at h
      simp at h
  | some f2 =>
      rw [show splitFirstDot (pyLower b) =
            ((splitFirstDot (pyLower b)).1, (splitFirstDot (pyLower b)).2) from rfl,
          hs] at h
      simp only [Ref.scoped.injEq] at h
      obtain ⟨rfl, rfl⟩ := h
      exact ⟨(splitFirstDot_pyLower_fixed b).1,
        (splitFirstDot_pyLower_fixed b).2 _ hs⟩

/-- Classification only depends on the lower-cased body. -/
theorem refOfBody_pyLower (b : String) :
    refOfBody (pyLower b) = refOfBody b := by
  unfold refOfBody
  rw [pyLower_idem]

/-- Classifying a token ignores the case of its marker body. -/
theorem refTok_lowerTok (t : Tok) : refTok (lowerTok t) = refTok t := by
  cases t with
  | lit c => rfl
  | marker b =>
      show STok.ref (refOfBody (pyLower b)) = STok.ref (refOfBody b)
      rw [refOfBody_pyLower]

/-- Membership in the deduplication with a seen accumulator. -/
theorem mem_dedupFirstAux {a : String} {l seen : List String} :
    a ∈ dedupFirstAux seen l ↔ a ∈ l ∧ a ∉ seen := by
  induction l generalizing seen with
  | nil => simp [dedupFirstAux]
  | cons x xs ih =>
      unfold dedupFirstAux
      by_cases hx : x ∈ seen
      · rw [if_pos hx, ih]
        simp only [List.mem_cons]
        constructor
        · rintro ⟨hm, hns⟩
          exact ⟨Or.inr hm, hns⟩
        · rintro ⟨hm | hm, hns⟩
          · exact absurd hx (hm ▸ hns)
          · exact ⟨hm, hns⟩
      · rw [if_neg hx]
        simp only [List.mem_cons, ih]
        constructor
        · rintro (rfl | ⟨hm, hns⟩)
          · exact ⟨Or.inl rfl, hx⟩
          · refine ⟨Or.inr hm, fun hc => hns ?_⟩
            exact Or.inr hc
        · rintro ⟨rfl | hm, hns⟩
          · exact Or.inl rfl
          · by_cases hax : a = x
            · exact Or.inl hax
            · refine Or.inr ⟨hm, fun hc => ?_⟩
              rcases hc with h1 | h1
              · exact hax h1
              · exact hns h1

/-- Membership in the deduplicated list. -/
theorem mem_dedupFirst {a : String} {l : List String} :
    a ∈ dedupFirst l ↔ a ∈ l := by
  unfold dedupFirst
  rw [mem_dedupFirstAux]
  simp

/-- Scalar names referenced by a pattern are already lower-cased. -/
theorem varNamesOf_fixed {p : String} {n : String}
    (h : n ∈ varNamesOf p) : pyLower n = n := by
  unfold varNamesOf at h
  rw [mem_dedupFirst] at h
  obtain ⟨t, hmem, ht⟩ := List.mem_filterMap.mp h
  unfold refsOf at hmem
  match t with
  | STok.lit _ => simp at ht
  | STok.ref (Ref.var m) =>
      simp only [Option.some.injEq] at ht
      subst ht
      obtain ⟨tok, -, htok⟩ := List.mem_map.mp hmem
      match tok with
      | Tok.lit _ => simp [refTok] at htok
      | Tok.marker b =>
          have : refOfBody b = Ref.var m := by
            have := htok
            unfold refTok at this
            simpa using this
          exact refOfBody_var_fixed this
  | STok.ref (Ref.scoped _ _) => simp at ht

/-- Scope names referenced by a pattern are already lower-cased. -/
theorem scopeNamesOf_fixed {p : String} {s : String}
    (h : s ∈ scopeNamesOf p) : pyLower s = s := by
  unfold scopeNamesOf at h
  rw [mem_dedupFirst] at h
  obtain ⟨t, hmem, ht⟩ := List.mem_filterMap.mp h
  unfold refsOf at hmem
  match t with
  | STok.lit _ => simp at ht
  | STok.ref (Ref.var _) => simp at ht
  | STok.ref (Ref.scoped s2 f) =>
      simp only [Option.some.injEq] at ht
      subst ht
      obtain ⟨tok, -, htok⟩ := List.mem_map.mp hmem
      match tok with
      | Tok.lit _ => simp [refTok] at htok
      | Tok.marker b =>
          have : refOfBody b = Ref.scoped s2 f := by
            have := htok
            unfold refTok at this
            simpa using this
          exact (refOfBody_scoped_fixed this).1

/-- Field names a pattern requests from a scope are already
lower-cased. -/
theorem scopeFieldsOf_fixed {p : String} {s f : String}
    (h : f ∈ scopeFieldsOf p s) : pyLower f = f := by
  unfold scopeFieldsOf at h
  rw [mem_dedupFirst] at h
  obtain ⟨t, hmem, ht⟩ := List.mem_filterMap.mp h
  unfold refsOf at hmem
  match t with
  | STok.lit _ => simp at ht
  | STok.ref (Ref.var _) => simp at ht
  | STok.ref (Ref.scoped s2 f2) =>
      have hf2 : f2 = f := by
        by_cases hs2 : s2 = s
        · simpa [hs2] using ht
        · simp [hs2] at ht
      subst hf2
      obtain ⟨tok, -, htok⟩ := List.mem_map.mp hmem
      match tok with
      | Tok.lit _ => simp [refTok] at htok
      | Tok.marker b =>
          have : refOfBody b = Ref.scoped s2 f2 := by
            have := htok
            unfold refTok at this
            simpa using this
          exact (refOfBody_scoped_fixed this).2

/-- Membership after a set.add step. -/
theorem mem_addMissing {m : List String} {n a : String} :
    a ∈ addMissing m n ↔ a ∈ m ∨ a = n := by
  unfold addMissing
  by_cases hn : n ∈ m
  · rw [if_pos hn]
    constructor
    · exact Or.inl
    · rintro (h | rfl)
      · exact h
      · exact hn
  · rw [if_neg hn]
    simp

/-- Names the scalar loop adds to the missing set: exactly the
lower-cased variable names whose knowledge-base value is falsy. -/
theorem mem_resolveScalarsAux {kb : KnowledgeBase} {vs : List String}
    {acc : List (String × KbValue) × List String} {a : String} :
    a ∈ (resolveScalarsAux kb acc vs).2 ↔
      a ∈ acc.2 ∨ ∃ v ∈ vs, pyLower v = a ∧
        truthy (kb.getAttr (pyLower v)) = false := by
  induction vs generalizing acc with
  | nil => simp [resolveScalarsAux]
  | cons v rest ih =>
      unfold resolveScalarsAux
      cases hv : kb.getAttr (pyLower v) with
      | none =>
          simp only [hv]
          rw [ih]
          simp only [mem_addMissing, List.mem_cons]
          constructor
          · rintro ((h | rfl) | ⟨w, hw, hp, ht⟩)
            · exact Or.inl h
            · exact Or.inr ⟨v, Or.inl rfl, rfl, by rw [hv] ; rfl⟩
            · exact Or.inr ⟨w, Or.inr hw, hp, ht⟩
          · rintro (h | ⟨w, hw | hw, hp, ht⟩)
            · exact Or.inl (Or.inl h)
            · subst hw
              exact Or.inl (Or.inr hp.symm)
            · exact Or.inr ⟨w, hw, hp, ht⟩
      | some w =>
          simp only [hv]
          by_cases ht : truthy (some w) = true
          · rw [if_pos ht, ih]
            simp only [List.mem_cons, hv]
            constructor
            · rintro (h | ⟨u, hu, hp, hf⟩)
              · exact Or.inl h
              · exact Or.inr ⟨u, Or.inr hu, hp, hf⟩
            · rintro (h | ⟨u, hu | hu, hp, hf⟩)
              · exact Or.inl h
              · subst hu
                rw [hv] at hf
                rw [ht] at hf
                simp at hf
              · exact Or.inr ⟨u, hu, hp, hf⟩
          · rw [if_neg ht, ih]
            have ht2 : truthy (some w) = false := by
              cases h2 : truthy (some w)
              · rfl
              · exact absurd h2 ht
            simp only [mem_addMissing, List.mem_cons, hv]
            constructor
            · rintro ((h | rfl) | ⟨u, hu, hp, hf⟩)
              · exact Or.inl h
              · exact Or.inr ⟨v, Or.inl rfl, rfl, by rw [hv] ; exact ht2⟩
              · exact Or.inr ⟨u, Or.inr hu, hp, hf⟩
            · rintro (h | ⟨u, hu | hu, hp, hf⟩)
              · exact Or.inl (Or.inl h)
              · subst hu
                exact Or.inl (Or.inr hp.symm)
              · exact Or.inr ⟨u, hu, hp, hf⟩

/-- Names the scope loop adds to the missing set: exactly the
lower-cased scope names whose resolution fails. -/
theorem mem_resolveScopesAux {kb : KnowledgeBase}
    {fieldsOf : String → List String} {ss : List String}
    {acc : List (String × List Record) × List String} {a : String} :
    a ∈ (resolveScopesAux kb fieldsOf acc ss).2 ↔
      a ∈ acc.2 ∨ ∃ s ∈ ss, pyLower s = a ∧
        resolveScope kb (fieldsOf s) s = none := by
  induction ss generalizing acc with
  | nil => simp [resolveScopesAux]
  | cons s rest ih =>
      unfold resolveScopesAux
      cases hs : resolveScope kb (fieldsOf s) s with
      | some accepted =>
          rw [ih]
          simp only [List.mem_cons]
          constructor
          · rintro (h | ⟨u, hu, hp, hf⟩)
            · exact Or.inl h
            · exact Or.inr ⟨u, Or.inr hu, hp, hf⟩
          · rintro (h | ⟨u, hu | hu, hp, hf⟩)
            · exact Or.inl h
            · subst hu
              rw [hs] at hf
              cases hf
            · exact Or.inr ⟨u, hu, hp, hf⟩
      | none =>
          rw [ih]
          simp only [mem_addMissing, List.mem_cons]
          constructor
          · rintro ((h | rfl) | ⟨u, hu, hp, hf⟩)
            · exact Or.inl h
            · exact Or.inr ⟨s, Or.inl rfl, rfl, hs⟩
            · exact Or.inr ⟨u, Or.inr hu, hp, hf⟩
          · rintro (h | ⟨u, hu | hu, hp, hf⟩)
            · exact Or.inl (Or.inl h)
            · subst hu
              exact Or.inl (Or.inr hp.symm)
            · exact Or.inr ⟨u, hu, hp, hf⟩

/-- The missing set of a pattern: its falsy scalar names together with
its failed scope names. -/
theorem mem_missingNames {p : String} {kb : KnowledgeBase} {a : String} :
    a ∈ missingNames p kb ↔
      (∃ v ∈ varNamesOf p, pyLower v = a ∧
        truthy (kb.getAttr (pyLower v)) = false) ∨
      (∃ s ∈ scopeNamesOf p, pyLower s = a ∧
        resolveScope kb (scopeFieldsOf p s) s = none) := by
  unfold missingNames resolveAll
  rw [mem_resolveScopesAux, mem_resolveScalarsAux]
  simp

/-- Source acceptance criterion, restated: the bindings count reaches
the requested-field count exactly when every requested field is truthy
on the record. -/
theorem acceptInstance_iff {fields : List String} {r : Record} :
    acceptInstance fields r = true ↔
      ∀ f ∈ fields, fieldTruthy (r.getAttr (pyLower f)) = true := by
  unfold acceptInstance
  rw [decide_eq_true_iff]
  exact List.filter_length_eq_length

/-- Failure criterion of one scope, in terms of the knowledge base
value and the accepted instances, assuming lower-cased inputs. -/
theorem resolveScope_none_iff {kb : KnowledgeBase} {fields : List String}
    {s : String} (hfix : pyLower s = s)
    (hffix : ∀ f ∈ fields, pyLower f = f) :
    (resolveScope kb fields s = none ↔
      truthy (kb.getAttr s) = false ∨
        ∀ r ∈ kbGroup kb s, ∃ f ∈ fields,
          fieldTruthy (r.getAttr f) = false) := by
  unfold resolveScope kbGroup
  rw [hfix]
  cases hv : kb.getAttr s with
  | none =>
      simp [truthy]
  | some v =>
      dsimp only
      by_cases ht : truthy (some v) = true
      · rw [if_pos ht]
        have htf : ¬ truthy (some v) = false := by
          rw [ht]
          simp
        constructor
        · intro h
          by_cases he : ((instancesOf v).filter (acceptInstance fields)).isEmpty = true
          · refine Or.inr fun r hr => ?_
            rw [List.isEmpty_iff, List.filter_eq_nil_iff] at he
            have hna := he r hr
            rw [Bool.not_eq_true] at hna
            have := @acceptInstance_iff fields r
            rw [hna] at this
            have h2 : ¬ ∀ f ∈ fields, fieldTruthy (r.getAttr (pyLower f)) = true := by
              intro hall
              exact absurd (this.mpr hall) (by simp)
            push_neg at h2
            obtain ⟨f, hf, hft⟩ := h2
            refine ⟨f, hf, ?_⟩
            rw [← hffix f hf]
            exact Bool.eq_false_iff.mpr hft
          · rw [if_neg he] at h
            cases h
        · rintro (h | h)
          · exact absurd h htf
          · rw [if_pos ?_]
            rw [List.isEmpty_iff, List.filter_eq_nil_iff]
            intro r hr
            obtain ⟨f, hf, hft⟩ := h r hr
            rw [Bool.not_eq_true]
            rw [← Bool.not_eq_true, acceptInstance_iff]
            · intro hall
              have := hall f hf
              rw [hffix f hf] at this
              rw [this] at hft
              cases hft
      · rw [if_neg ht]
        have ht2 : truthy (some v) = false := by
          cases h2 : truthy (some v)
          · rfl
          · exact absurd h2 ht
        simp [ht2]

/-- Success of one scope: the bound instances are exactly the accepted
filter of the group. -/
theorem resolveScope_some {kb : KnowledgeBase} {fields : List String}
    {s : String} {accepted : List Record} (hfix : pyLower s = s)
    (h : resolveScope kb fields s = some accepted) :
    accepted = (kbGroup kb s).filter (acceptInstance fields) := by
  unfold resolveScope at h
  unfold kbGroup
  rw [hfix] at h
  cases hv : kb.getAttr s with
  | none =>
      rw [hv] at h
      cases h
  | some v =>
      rw [hv] at h
      dsimp only at h ⊢
      by_cases ht : truthy (some v) = true
      · rw [if_pos ht] at h
        by_cases he : ((instancesOf v).filter (acceptInstance fields)).isEmpty = true
        · rw [if_pos he] at h
          cases h
        · rw [if_neg he] at h
          exact (Option.some.injEq _ _ ▸ h).symm
      · rw [if_neg ht] at h
        cases h

/-- A list whose first two entries are percent signs decomposes. -/
theorem take_two_percent {l : List Char}
    (h : l.take 2 = ['%', '%']) : l = '%' :: '%' :: l.drop 2 := by
  match l with
  | [] => simp at h
  | [x] => simp at h
  | x :: y :: rest =>
      simp only [List.take, List.cons.injEq, and_true] at h
      obtain ⟨rfl, rfl, -⟩ := h
      rfl

/-- A list whose first entry is a percent sign decomposes. -/
theorem take_one_percent {l : List Char}
    (h : l.take 1 = ['%']) : l = '%' :: l.drop 1 := by
  match l with
  | [] => simp at h
  | x :: rest =>
      simp only [List.take, List.cons.injEq, and_true] at h
      obtain ⟨rfl, -⟩ := h
      rfl

/-- Unfolding one token of the flattening. -/
theorem flattenToks_cons (t : Tok) (ts : List Tok) :
    flattenToks (t :: ts) =
      (match t with
        | Tok.lit c => [c]
        | Tok.marker b => '%' :: '%' :: b.data ++ ['%', '%']) ++
        flattenToks ts := by
  unfold flattenToks
  rw [List.flatMap_cons]

/-- The scanner is lossless: flattening its tokens restores the
scanned characters, for sufficient fuel. -/
theorem scanToksF_flatten {fuel : Nat} {cs : List Char}
    (h : cs.length ≤ fuel) : flattenToks (scanToksF fuel cs) = cs := by
  induction fuel generalizing cs with
  | zero =>
      have : cs = [] := List.length_eq_zero.mp (Nat.le_zero.mp h)
      subst this
      rfl
  | succ fuel ih =>
      match cs with
      | [] => rfl
      | c :: rest =>
          unfold scanToksF
          by_cases h1 : c = '%' ∧ rest.take 1 = ['%']
          · rw [if_pos h1]
            obtain ⟨rfl, htk⟩ := h1
            have hrest : rest = '%' :: rest.drop 1 := take_one_percent htk
            by_cases h2 : (rest.drop 1).takeWhile (fun x => x ≠ '%') ≠ [] ∧
                ((rest.drop 1).dropWhile (fun x => x ≠ '%')).take 2 = ['%', '%']
            · rw [if_pos h2]
              obtain ⟨hb, ht2⟩ := h2
              have hsplit : (rest.drop 1).takeWhile (fun x => x ≠ '%') ++
                  (rest.drop 1).dropWhile (fun x => x ≠ '%') = rest.drop 1 :=
                List.takeWhile_append_dropWhile ..
              have hdec : (rest.drop 1).dropWhile (fun x => x ≠ '%') =
                  '%' :: '%' ::
                    ((rest.drop 1).dropWhile (fun x => x ≠ '%')).drop 2 :=
                take_two_percent ht2
              have hlen : (((rest.drop 1).dropWhile (fun x => x ≠ '%')).drop 2).length ≤ fuel := by
                have hd : ((rest.drop 1).dropWhile (fun x => x ≠ '%')).length ≤
                    (rest.drop 1).length :=
                  (List.dropWhile_sublist _).length_le
                have h4 : rest.length + 1 ≤ fuel + 1 := by
                  simpa using h
                simp only [List.length_drop] at hd ⊢
                omega
              rw [flattenToks_cons, ih hlen]
              conv_rhs => rw [hrest]
              conv_rhs => rw [← hsplit]
              conv_rhs => rw [hdec]
              simp
            · rw [if_neg h2]
              have hlen : rest.length ≤ fuel := by
                simpa using h
              rw [flattenToks_cons, ih hlen]
              rfl
          · rw [if_neg h1]
            have hlen : rest.length ≤ fuel := by
              simpa using h
            rw [flattenToks_cons, ih hlen]
            rfl

/-- The scanner is lossless on whole patterns. -/
theorem scanToks_flatten (p : String) : flattenToks (scanToks p) = p.data :=
  scanToksF_flatten (Nat.le_refl _)

/-- Unfolding one token of the Windows flattening. -/
theorem flattenWToks_cons (t : WTok) (ts : List WTok) :
    flattenWToks (t :: ts) =
      (match t with
        | WTok.lit c => [c]
        | WTok.envMarker b => '%' :: b.data ++ ['%']) ++
        flattenWToks ts := by
  unfold flattenWToks
  rw [List.flatMap_cons]

/-- The Windows scanner is lossless for sufficient fuel. -/
theorem winToksF_flatten {fuel : Nat} {cs : List Char}
    (h : cs.length ≤ fuel) : flattenWToks (winToksF fuel cs) = cs := by
  induction fuel generalizing cs with
  | zero =>
      have : cs = [] := List.length_eq_zero.mp (Nat.le_zero.mp h)
      subst this
      rfl
  | succ fuel ih =>
      match cs with
      | [] => rfl
      | c :: rest =>
          unfold winToksF
          by_cases h1 : c = '%'
          · rw [if_pos h1]
            subst h1
            by_cases h2 : rest.takeWhile (fun x => x ≠ '%') ≠ [] ∧
                (rest.dropWhile (fun x => x ≠ '%')).take 1 = ['%']
            · rw [if_pos h2]
              obtain ⟨hb, ht1⟩ := h2
              have hsplit : rest.takeWhile (fun x => x ≠ '%') ++
                  rest.dropWhile (fun x => x ≠ '%') = rest :=
                List.takeWhile_append_dropWhile ..
              have hdec : rest.dropWhile (fun x => x ≠ '%') =
                  '%' :: (rest.dropWhile (fun x => x ≠ '%')).drop 1 :=
                take_one_percent ht1
              have hlen : ((rest.dropWhile (fun x => x ≠ '%')).drop 1).length ≤ fuel := by
                have hd : (rest.dropWhile (fun x => x ≠ '%')).length ≤ rest.length :=
                  (List.dropWhile_sublist _).length_le
                have h4 : rest.length + 1 ≤ fuel + 1 := by
                  simpa using h
                simp only [List.length_drop] at hd ⊢
                omega
              rw [flattenWToks_cons, ih hlen]
              conv_rhs => rw [← hsplit]
              conv_rhs => rw [hdec]
              simp
            · rw [if_neg h2]
              have hlen : rest.length ≤ fuel := by
                simpa using h
              rw [flattenWToks_cons, ih hlen]
              rfl
          · rw [if_neg h1]
            have hlen : rest.length ≤ fuel := by
              simpa using h
            rw [flattenWToks_cons, ih hlen]
            rfl

/-- The Windows scanner is lossless on whole strings. -/
theorem winToks_flatten (s : String) : flattenWToks (winToks s) = s.data :=
  winToksF_flatten (Nat.le_refl _)

/-- Appending under the string join. -/
theorem joinAll_cons (s : String) (l : List String) :
    joinAll (s :: l) = s ++ joinAll l := rfl

/-- Joining singleton characters restores the character list. -/
theorem joinAll_singletons (cs : List Char) :
    joinAll (cs.map String.singleton) = ⟨cs⟩ := by
  induction cs with
  | nil => rfl
  | cons c rest ih =>
      rw [List.map_cons, joinAll_cons, ih]
      rfl

/-- Fused expansion agrees with scanning followed by per-token
substitution, for sufficient fuel. -/
theorem expandWinF_eq_render {kb : KnowledgeBase} {fuel : Nat}
    {cs : List Char} (h : cs.length ≤ fuel) :
    expandWindowsEnvironmentVariablesF kb fuel cs =
      joinAll ((winToksF fuel cs).map fun t =>
        match t with
        | WTok.lit c => String.singleton c
        | WTok.envMarker b => envSubst kb b) := by
  induction fuel generalizing cs with
  | zero =>
      have : cs = [] := List.length_eq_zero.mp (Nat.le_zero.mp h)
      subst this
      rfl
  | succ fuel ih =>
      match cs with
      | [] => rfl
      | c :: rest =>
          unfold expandWindowsEnvironmentVariablesF winToksF
          by_cases h1 : c = '%'
          · rw [if_pos h1, if_pos h1]
            by_cases h2 : rest.takeWhile (fun x => x ≠ '%') ≠ [] ∧
                (rest.dropWhile (fun x => x ≠ '%')).take 1 = ['%']
            · rw [if_pos h2, if_pos h2]
              have hlen : ((rest.dropWhile (fun x => x ≠ '%')).drop 1).length ≤ fuel := by
                have hd : (rest.dropWhile (fun x => x ≠ '%')).length ≤ rest.length :=
                  (List.dropWhile_sublist _).length_le
                have h4 : rest.length + 1 ≤ fuel + 1 := by
                  simpa using h
                simp only [List.length_drop] at hd ⊢
                omega
              rw [ih hlen, List.map_cons, joinAll_cons]
            · rw [if_neg h2, if_neg h2]
              have hlen : rest.length ≤ fuel := by
                simpa using h
              rw [ih hlen, List.map_cons, joinAll_cons]
          · rw [if_neg h1, if_neg h1]
            have hlen : rest.length ≤ fuel := by
              simpa using h
            rw [ih hlen, List.map_cons, joinAll_cons]

/-- Every name joined into the diagnostic occurs inside the joined
string. -/
theorem joinComma_mentions {n : String} {l : List String} (h : n ∈ l) :
    ∃ pre post, (joinComma l).data = pre ++ n.data ++ post := by
  induction l with
  | nil => cases h
  | cons x rest ih =>
      match rest with
      | [] =>
          have : n = x := by
            rcases List.mem_cons.mp h with h1 | h1
            · exact h1
            · cases h1
          subst this
          exact ⟨[], [], by simp [joinComma]⟩
      | y :: rest2 =>
          have hjc : joinComma (x :: y :: rest2) =
              x ++ ", " ++ joinComma (y :: rest2) := rfl
          rcases List.mem_cons.mp h with h1 | h1
          · subst h1
            refine ⟨[], (", " ++ joinComma (y :: rest2)).data, ?_⟩
            rw [hjc, String.data_append, String.data_append,
              String.data_append]
            simp
          · obtain ⟨pre, post, hp⟩ := ih h1
            refine ⟨(x ++ ", ").data ++ pre, post, ?_⟩
            rw [hjc, String.data_append, hp]
            simp

/-- Every missing name occurs inside the diagnostic message. -/
theorem missingMessage_mentions {n : String} {l : List String}
    (h : n ∈ l) :
    ∃ pre post, (missingMessage l).data = pre ++ n.data ++ post := by
  obtain ⟨pre, post, hp⟩ := joinComma_mentions h
  refine ⟨("Some attributes could not be located in the knowledgebase: " : String).data ++ pre,
    post, ?_⟩
  unfold missingMessage
  rw [String.data_append, hp]
  simp

/-- Patterns without markers scan to literal tokens only. -/
theorem all_lit_of_no_markers {p : String} (h : markersOf p = []) :
    ∀ t ∈ scanToks p, ∃ c, t = Tok.lit c := by
  intro t ht
  match t with
  | Tok.lit c => exact ⟨c, rfl⟩
  | Tok.marker b =>
      unfold markersOf at h
      rw [List.filterMap_eq_nil_iff] at h
      have := h _ ht
      simp at this

/-- Patterns without markers reference no scalar names. -/
theorem varNamesOf_no_markers {p : String} (h : markersOf p = []) :
    varNamesOf p = [] := by
  unfold varNamesOf refsOf
  have h2 : ((scanToks p).map refTok).filterMap (fun t =>
      match t with
      | STok.ref (Ref.var n) => some n
      | _ => none) = [] := by
    rw [List.filterMap_eq_nil_iff]
    intro t ht
    obtain ⟨tok, htok, rfl⟩ := List.mem_map.mp ht
    obtain ⟨c, rfl⟩ := all_lit_of_no_markers h tok htok
    rfl
  rw [h2]
  rfl

/-- Patterns without markers reference no scope names. -/
theorem scopeNamesOf_no_markers {p : String} (h : markersOf p = []) :
    scopeNamesOf p = [] := by
  unfold scopeNamesOf refsOf
  have h2 : ((scanToks p).map refTok).filterMap (fun t =>
      match t with
      | STok.ref (Ref.scoped s _) => some s
      | _ => none) = [] := by
    rw [List.filterMap_eq_nil_iff]
    intro t ht
    obtain ⟨tok, htok, rfl⟩ := List.mem_map.mp ht
    obtain ⟨c, rfl⟩ := all_lit_of_no_markers h tok htok
    rfl
  rw [h2]
  rfl

/-- Rendering literal-only tokens reproduces their characters. -/
theorem joinAll_render_lits {toks : List Tok}
    (h : ∀ t ∈ toks, ∃ c, t = Tok.lit c)
    (binds : List (String × KbValue)) (combo : List (String × Record)) :
    joinAll ((toks.map refTok).map (renderRefTok binds combo)) =
      ⟨flattenToks toks⟩ := by
  induction toks with
  | nil => rfl
  | cons t rest ih =>
      obtain ⟨c, rfl⟩ := h t (by simp)
      rw [List.map_cons, List.map_cons, joinAll_cons,
        ih fun u hu => h u (List.mem_cons_of_mem _ hu), flattenToks_cons]
      rfl

/-- Scans that agree after lower-casing classify identically. -/
theorem refsOf_eq_of_lower {p1 p2 : String}
    (h : (scanToks p1).map lowerTok = (scanToks p2).map lowerTok) :
    refsOf p1 = refsOf p2 := by
  unfold refsOf
  have hcomp : refTok ∘ lowerTok = refTok := funext refTok_lowerTok
  calc (scanToks p1).map refTok
      = ((scanToks p1).map lowerTok).map refTok := by
        rw [List.map_map, hcomp]
    _ = ((scanToks p2).map lowerTok).map refTok := by rw [h]
    _ = (scanToks p2).map refTok := by rw [List.map_map, hcomp]

/-- Interpolation results only depend on the classified tokens. -/
theorem interpolate_eq_of_refs {p1 p2 : String} (hr : refsOf p1 = refsOf p2)
    (kb : KnowledgeBase) (ig : Bool) :
    interpolateKbAttributes p1 kb ig = interpolateKbAttributes p2 kb ig := by
  have hv : varNamesOf p1 = varNamesOf p2 := by
    unfold varNamesOf
    rw [hr]
  have hs : scopeNamesOf p1 = scopeNamesOf p2 := by
    unfold scopeNamesOf
    rw [hr]
  have hf : scopeFieldsOf p1 = scopeFieldsOf p2 := by
    funext s
    unfold scopeFieldsOf
    rw [hr]
  have hra : resolveAll p1 kb = resolveAll p2 kb := by
    unfold resolveAll
    rw [hv, hs, hf]
  unfold interpolateKbAttributes
  rw [hra, hr, hs]

/-- C1: strict interpolation computes the complete missing set over the
whole pattern before failing, and then raises a single
KnowledgeBaseInterpolationError whose message mentions every missing
name; it never raises one error per missing name.  In the embedding
missingNames is the full resolution of every scalar and scope reference
of the pattern, and the sole error value carries one message containing
each missing name. -/
theorem interpolate_strict_single_error (p : String) (kb : KnowledgeBase)
    (h : missingNames p kb ≠ []) :
    interpolateKbAttributes p kb false =
        InterpResult.error (missingMessage (missingNames p kb)) ∧
      ∀ n ∈ missingNames p kb, ∃ pre post,
        (missingMessage (missingNames p kb)).data = pre ++ n.data ++ post := by
  constructor
  · have he : ¬ ((resolveAll p kb).2.2.isEmpty = true) := by
      rw [List.isEmpty_iff]
      exact h
    unfold interpolateKbAttributes
    rw [if_neg he]
    rfl
  · intro n hn
    exact missingMessage_mentions hn

/-- Witness for C1 at a concrete pattern with two missing scalars. -/
theorem interpolate_strict_single_error_witness :
    missingNames "%%os%%-%%fqdn%%" (KnowledgeBase.mk fun _ => none) ≠ [] ∧
      (interpolateKbAttributes "%%os%%-%%fqdn%%"
          (KnowledgeBase.mk fun _ => none) false =
        InterpResult.error (missingMessage
          (missingNames "%%os%%-%%fqdn%%" (KnowledgeBase.mk fun _ => none))) ∧
      ∀ n ∈ missingNames "%%os%%-%%fqdn%%" (KnowledgeBase.mk fun _ => none),
        ∃ pre post,
          (missingMessage (missingNames "%%os%%-%%fqdn%%"
            (KnowledgeBase.mk fun _ => none))).data = pre ++ n.data ++ post) :=
  ⟨by decide, interpolate_strict_single_error _ _ (by decide)⟩

/-- C3: when the missing set is nonempty and ignore_errors is true, the
call raises nothing and yields exactly zero output strings, the logged
diagnostic being its only effect. -/
theorem interpolate_lenient_yields_nothing (p : String) (kb : KnowledgeBase)
    (h : missingNames p kb ≠ []) :
    interpolateKbAttributes p kb true = InterpResult.ok [] := by
  have he : ¬ ((resolveAll p kb).2.2.isEmpty = true) := by
    rw [List.isEmpty_iff]
    exact h
  unfold interpolateKbAttributes
  rw [if_neg he]
  rfl

/-- Witness for C3 at a concrete pattern with a missing scalar. -/
theorem interpolate_lenient_yields_nothing_witness :
    missingNames "a-%%os%%-b" (KnowledgeBase.mk fun _ => none) ≠ [] ∧
      interpolateKbAttributes "a-%%os%%-b" (KnowledgeBase.mk fun _ => none)
        true = InterpResult.ok [] :=
  ⟨by decide, interpolate_lenient_yields_nothing _ _ (by decide)⟩

/-- C4 as amended: the raised error carries all missing names joined by
a comma separator into one message, in the missing set's iteration
order (discovery order in this embedding); the list is not sorted. -/
theorem interpolate_error_joins_missing (p : String) (kb : KnowledgeBase)
    (h : missingNames p kb ≠ []) :
    interpolateKbAttributes p kb false =
      InterpResult.error
        ("Some attributes could not be located in the knowledgebase: " ++
          joinComma (missingNames p kb)) := by
  have he : ¬ ((resolveAll p kb).2.2.isEmpty = true) := by
    rw [List.isEmpty_iff]
    exact h
  unfold interpolateKbAttributes
  rw [if_neg he]
  rfl

/-- Witness for the amended C4 at a concrete input. -/
theorem interpolate_error_joins_missing_witness :
    missingNames "%%b%%%%a%%" (KnowledgeBase.mk fun _ => none) ≠ [] ∧
      interpolateKbAttributes "%%b%%%%a%%" (KnowledgeBase.mk fun _ => none)
          false =
        InterpResult.error
          ("Some attributes could not be located in the knowledgebase: " ++
            joinComma (missingNames "%%b%%%%a%%"
              (KnowledgeBase.mk fun _ => none))) :=
  ⟨by decide, interpolate_error_joins_missing _ _ (by decide)⟩

/-- Counterexample to C4 as stated: for the pattern naming zeta before
alpha, the raised message joins the names in discovery order, which
differs from the sorted join the claim asserts. -/
theorem interpolate_error_not_sorted_counterexample :
    interpolateKbAttributes "%%zeta%%%%alpha%%"
        (KnowledgeBase.mk fun _ => none) false =
      InterpResult.error
        "Some attributes could not be located in the knowledgebase: zeta, alpha" ∧
      sortedMissingMessage (missingNames "%%zeta%%%%alpha%%"
          (KnowledgeBase.mk fun _ => none)) =
        "Some attributes could not be located in the knowledgebase: alpha, zeta" ∧
      ("Some attributes could not be located in the knowledgebase: zeta, alpha" : String) ≠
        "Some attributes could not be located in the knowledgebase: alpha, zeta" := by
  refine ⟨by decide, by decide, by decide⟩

/-- C5: a pattern containing no placeholder markers expands, for every
knowledge base and either error mode, to exactly one output string: the
pattern unchanged. -/
theorem interpolate_no_markers (p : String) (kb : KnowledgeBase) (ig : Bool)
    (h : markersOf p = []) :
    interpolateKbAttributes p kb ig = InterpResult.ok [p] := by
  have hv : varNamesOf p = [] := varNamesOf_no_markers h
  have hs : scopeNamesOf p = [] := scopeNamesOf_no_markers h
  have hra : resolveAll p kb = ([], [], []) := by
    unfold resolveAll
    rw [hv, hs]
    rfl
  unfold interpolateKbAttributes
  rw [hra, hs]
  show InterpResult.ok (interpolateOutputs (refsOf p) [] [] []) = _
  unfold interpolateOutputs combos
  rw [List.map_singleton]
  unfold refsOf
  rw [joinAll_render_lits (all_lit_of_no_markers h) [] [],
    scanToks_flatten]

/-- Witness for C5 at a concrete literal pattern. -/
theorem interpolate_no_markers_witness :
    markersOf "literal text" = [] ∧
      interpolateKbAttributes "literal text"
          (KnowledgeBase.mk fun _ => some (KbValue.str "x")) true =
        InterpResult.ok ["literal text"] :=
  ⟨by decide, interpolate_no_markers _ _ _ (by decide)⟩

/-- C2: for every scope a pattern references, an instance of the
knowledge-base group is bound exactly when every requested field is
truthy on it, and the scope name is missing exactly when the group is
falsy (absent or empty) or no instance satisfies every requested
field. -/
theorem scope_binding_and_missing (p : String) (kb : KnowledgeBase)
    (s : String) (hs : s ∈ scopeNamesOf p) :
    (∀ accepted, resolveScope kb (scopeFieldsOf p s) s = some accepted →
        ∀ r, r ∈ accepted ↔ r ∈ kbGroup kb s ∧
          ∀ f ∈ scopeFieldsOf p s, fieldTruthy (r.getAttr f) = true) ∧
      (s ∈ missingNames p kb ↔
        truthy (kb.getAttr s) = false ∨
          ∀ r ∈ kbGroup kb s, ∃ f ∈ scopeFieldsOf p s,
            fieldTruthy (r.getAttr f) = false) := by
  have hfix : pyLower s = s := scopeNamesOf_fixed hs
  have hffix : ∀ f ∈ scopeFieldsOf p s, pyLower f = f := fun f hf =>
    scopeFieldsOf_fixed hf
  constructor
  · intro accepted hacc r
    rw [resolveScope_some hfix hacc, List.mem_filter]
    constructor
    · rintro ⟨hm, hacc2⟩
      refine ⟨hm, fun f hf => ?_⟩
      have hft := acceptInstance_iff.mp hacc2 f hf
      rwa [hffix f hf] at hft
    · rintro ⟨hm, hall⟩
      refine ⟨hm, acceptInstance_iff.mpr fun f hf => ?_⟩
      rw [hffix f hf]
      exact hall f hf
  · rw [mem_missingNames]
    constructor
    · rintro (⟨v, hv, hpv, hft⟩ | ⟨s2, hs2, hps2, hrs⟩)
      · rw [hpv] at hft
        exact Or.inl hft
      · have heq : s2 = s := by
          rw [← hps2, scopeNamesOf_fixed hs2]
        subst heq
        exact (resolveScope_none_iff hfix hffix).mp hrs
    · intro hrhs
      exact Or.inr ⟨s, hs, hfix,
        (resolveScope_none_iff hfix hffix).mpr hrhs⟩

/-- Witness for C2 at a concrete pattern against an empty knowledge
base. -/
theorem scope_binding_and_missing_witness :
    "users" ∈ scopeNamesOf "%%users.homedir%%" ∧
      ("users" ∈ missingNames "%%users.homedir%%"
          (KnowledgeBase.mk fun _ => none) ↔
        truthy ((KnowledgeBase.mk fun _ => none).getAttr "users") = false ∨
          ∀ r ∈ kbGroup (KnowledgeBase.mk fun _ => none) "users",
            ∃ f ∈ scopeFieldsOf "%%users.homedir%%" "users",
              fieldTruthy (r.getAttr f) = false) :=
  ⟨by decide, (scope_binding_and_missing _ _ _ (by decide)).2⟩

/-- C6: placeholder identifiers are matched case-insensitively; two
patterns whose scans differ only in the case of marker bodies produce
identical results against every knowledge base and either error
mode. -/
theorem interpolate_case_insensitive (p1 p2 : String) (kb : KnowledgeBase)
    (ig : Bool)
    (h : (scanToks p1).map lowerTok = (scanToks p2).map lowerTok) :
    interpolateKbAttributes p1 kb ig = interpolateKbAttributes p2 kb ig :=
  interpolate_eq_of_refs (refsOf_eq_of_lower h) kb ig

/-- Witness for C6 on the patterns of the spec example. -/
theorem interpolate_case_insensitive_witness :
    (scanToks "%%OS%%").map lowerTok = (scanToks "%%os%%").map lowerTok ∧
      interpolateKbAttributes "%%OS%%"
          (KnowledgeBase.mk fun n =>
            if n = "os" then some (KbValue.str "Windows") else none) false =
        interpolateKbAttributes "%%os%%"
          (KnowledgeBase.mk fun n =>
            if n = "os" then some (KbValue.str "Windows") else none) false :=
  ⟨by decide, interpolate_case_insensitive _ _ _ _ (by decide)⟩

/-- C7: the multi-pattern entry point concatenates, in list order, each
element's expansion; the empty list yields the empty result. -/
theorem interpolateList_concat (ps : List String) (kb : KnowledgeBase)
    (ig : Bool)
    (h : ∀ p ∈ ps, (interpolateKbAttributes p kb ig).isOk = true) :
    interpolateListKbAttributes ps kb ig =
      InterpResult.ok (ps.flatMap fun p =>
        (interpolateKbAttributes p kb ig).outputsD) := by
  induction ps with
  | nil => rfl
  | cons p rest ih =>
      have hp := h p (List.mem_cons_self p rest)
      unfold interpolateListKbAttributes
      cases hi : interpolateKbAttributes p kb ig with
      | error m =>
          rw [hi] at hp
          simp [InterpResult.isOk] at hp
      | ok outs =>
          rw [ih fun q hq => h q (List.mem_cons_of_mem p hq)]
          dsimp only
          rw [List.flatMap_cons, hi]
          rfl

/-- Witness for C7 on a two-element list in lenient mode. -/
theorem interpolateList_concat_witness :
    (∀ p ∈ ["a-%%os%%", "b"],
        (interpolateKbAttributes p (KnowledgeBase.mk fun _ => none)
          true).isOk = true) ∧
      interpolateListKbAttributes ["a-%%os%%", "b"]
          (KnowledgeBase.mk fun _ => none) true =
        InterpResult.ok (["a-%%os%%", "b"].flatMap fun p =>
          (interpolateKbAttributes p (KnowledgeBase.mk fun _ => none)
            true).outputsD) :=
  ⟨by decide, interpolateList_concat _ _ _ (by decide)⟩

/-- C8: reading the audit-event store returns the stored events sorted
by their timestamp field (a permutation of the store, ordered by
timestamp), and a write appends exactly one event whose timestamp is
the clock reading taken at the moment of the write. -/
theorem auditEvents_read_sorted_write_appends :
    (∀ events : List AuditEvent,
        List.Sorted (fun a b : AuditEvent => a.timestamp ≤ b.timestamp)
            (readAllAuditEvents events) ∧
          (readAllAuditEvents events).Perm events) ∧
      ∀ (events : List AuditEvent) (event : AuditEvent) (now : Nat),
        writeAuditEvent events event now =
          events ++ [{ timestamp := now, payload := event.payload }] := by
  constructor
  · intro events
    constructor
    · haveI : IsTotal AuditEvent (fun a b => a.timestamp ≤ b.timestamp) :=
        ⟨fun a b => Nat.le_total a.timestamp b.timestamp⟩
      haveI : IsTrans AuditEvent (fun a b => a.timestamp ≤ b.timestamp) :=
        ⟨fun _ _ _ h1 h2 => Nat.le_trans h1 h2⟩
      exact List.sorted_insertionSort _ _
    · exact List.perm_insertionSort _ _
  · intro events event now
    rfl

/-- C9: the write never mutates the caller's event object: the store
copies the event, stamps the copy at a fresh heap address, and appends
that address, so the caller's object, original timestamp included, is
untouched. -/
theorem heapWrite_preserves_caller (heap : List AuditEvent)
    (events : List Nat) (a now : Nat) (ev : AuditEvent)
    (h : heap[a]? = some ev) :
    ((heapWriteAuditEvent heap events a now).1)[a]? = some ev ∧
      ((heapWriteAuditEvent heap events a now).1)[heap.length]? =
        some { timestamp := now, payload := ev.payload } ∧
      (heapWriteAuditEvent heap events a now).2 = events ++ [heap.length] := by
  have ha : a < heap.length := by
    rcases List.getElem?_eq_some.mp h with ⟨w, -⟩
    exact w
  unfold heapWriteAuditEvent
  rw [h]
  dsimp only
  refine ⟨?_, ?_, rfl⟩
  · rw [List.getElem?_set_ne (by omega), List.getElem?_append_left ha]
    exact h
  · rw [List.getElem?_set_self (by simp)]

/-- Witness for C9 on a one-object heap. -/
theorem heapWrite_preserves_caller_witness :
    ([AuditEvent.mk 5 "boot"])[0]? = some (AuditEvent.mk 5 "boot") ∧
      ((heapWriteAuditEvent [AuditEvent.mk 5 "boot"] [0] 0 77).1)[0]? =
          some (AuditEvent.mk 5 "boot") ∧
        ((heapWriteAuditEvent [AuditEvent.mk 5 "boot"] [0] 0 77).1)[1]? =
          some { timestamp := 77, payload := "boot" } ∧
        (heapWriteAuditEvent [AuditEvent.mk 5 "boot"] [0] 0 77).2 =
          [0] ++ [1] :=
  ⟨by decide, by
    have := heapWrite_preserves_caller [AuditEvent.mk 5 "boot"] [0] 0 77
      (AuditEvent.mk 5 "boot") (by decide)
    simpa using this⟩

/-- C10: Windows environment expansion substitutes a marker exactly
when the knowledge base holds a nonempty string under the
environ-prefixed lower-cased name; every other marker is reproduced
with its original case, and all text outside markers is preserved
verbatim in order (the token list is a lossless decomposition of the
input and the output maps it token by token). -/
theorem expandWindows_substitution (d : String) (kb : KnowledgeBase) :
    expandWindowsEnvironmentVariables d kb =
        joinAll ((winToks d).map fun t =>
          match t with
          | WTok.lit c => String.singleton c
          | WTok.envMarker b => envSubst kb b) ∧
      flattenWToks (winToks d) = d.data ∧
      (∀ b s, kb.getAttr ("environ_" ++ pyLower b) = some (KbValue.str s) →
        s ≠ "" → envSubst kb b = s) ∧
      (∀ b, (∀ s, kb.getAttr ("environ_" ++ pyLower b) =
          some (KbValue.str s) → s = "") →
        envSubst kb b = "%" ++ b ++ "%") := by
  refine ⟨expandWinF_eq_render (Nat.le_refl _), winToks_flatten d, ?_, ?_⟩
  · intro b s hb hs
    unfold envSubst
    rw [hb]
    dsimp only
    rw [if_pos hs]
  · intro b hb
    unfold envSubst
    cases hv : kb.getAttr ("environ_" ++ pyLower b) with
    | none => rfl
    | some v =>
        cases v with
        | group rs => rfl
        | str s =>
            have hse : s = "" := hb s hv
            subst hse
            dsimp only
            rw [if_neg (by simp)]

/-- Witness for C10 on a concrete path with one resolvable and one
unresolvable marker. -/
theorem expandWindows_substitution_witness :
    envSubst (KnowledgeBase.mk fun n =>
        if n = "environ_systemroot" then some (KbValue.str "C:\\Windows")
        else none) "SystemRoot" = "C:\\Windows" ∧
      envSubst (KnowledgeBase.mk fun n =>
        if n = "environ_systemroot" then some (KbValue.str "C:\\Windows")
        else none) "TEMP" = "%" ++ "TEMP" ++ "%" :=
  ⟨(expandWindows_substitution "x" _).2.2.1 "SystemRoot" "C:\\Windows"
      (by rfl) (by decide),
    (expandWindows_substitution "x" _).2.2.2 "TEMP" (fun s hs => by
      simp [pyLower, pyLowerChar, asciiPairs] at hs)⟩
